import Mathlib

/-!
Verification development for the spin-the-wheel promotional app.

The embedding below translates the logic of the repository's three source
variants (src/src/App.jsx, the authoritative current file, and the two
earlier variants src/unnamed/part_000 and src/unnamed/part_001) into Lean.
JavaScript numbers are modelled as exact rationals; the ambient
Math.random() stream is made explicit (the value u stands for one sample
in [0, 1)); the Firestore spins collection is modelled as an in-memory
list of records, and each event handler becomes a pure state transformer.
-/

namespace SpinWheel

/-- Prize document as stored in the prizes collection: an id, a display
label and an optional probability weight (documents may lack the field). -/
structure Prize where
  id : String
  label : String
  probability : Option ℚ
deriving DecidableEq, Repr

/-- Effective weight used by the arithmetic: JavaScript writes
`p.probability || 0`, which yields the declared number when present
(0 maps to 0 either way) and 0 when the field is missing. -/
def effProb (p : Prize) : ℚ := p.probability.getD 0

/-- Model of JavaScript String.prototype.trim: strip leading and
trailing whitespace characters. -/
def trimStr (s : String) : String :=
  ⟨((s.data.dropWhile Char.isWhitespace).reverse.dropWhile Char.isWhitespace).reverse⟩

/-- Total of the effective weights:
`prizes.reduce((s, p) => s + (p.probability || 0), 0)`. -/
def totalWeight (ps : List Prize) : ℚ := (ps.map effProb).sum

/-- Accumulated weight after scanning the first k entries: the value of
the variable `acc` in pickPrizeByProbability after k loop iterations. -/
def accs (ps : List Prize) (k : ℕ) : ℚ := ((ps.take k).map effProb).sum

/-- Cumulative upper bounds of the entries, i.e. the successive values of
`acc` inside the selection loop: entry i owns the bound accs (i+1). -/
def cumulBounds (ps : List Prize) : List ℚ :=
  (List.range ps.length).map (fun k => accs ps (k + 1))

/-- The selection loop of pickPrizeByProbability:
`for (i...) { acc += prizes[i].probability || 0; if (r <= acc) return {prize, index}; }`.
Arguments acc and i carry the accumulator and the loop counter. -/
def walkFrom (r : ℚ) : List Prize → ℚ → ℕ → Option (Prize × ℕ)
  | [], _, _ => none
  | p :: rest, acc, i =>
    if r ≤ acc + effProb p then some (p, i)
    else walkFrom r rest (acc + effProb p) (i + 1)

/-- Weighted selection for a drawn value r (the code after
`const r = Math.random() * total`): run the loop, and when the loop
exhausts, fall back to the last entry
(`return { prize: prizes[prizes.length - 1], index: prizes.length - 1 }`). -/
def selectWeighted (ps : List Prize) (r : ℚ) : Option (Prize × ℕ) :=
  match walkFrom r ps 0 0 with
  | some pi => some pi
  | none => ps.getLast?.map (fun p => (p, ps.length - 1))

/-- pickPrizeByProbability from src/src/App.jsx lines 40-53 (identical in
part_001). The sample u models one call of Math.random(). When the total
is ≤ 0 the code takes `Math.floor(Math.random() * prizes.length)` and
indexes the array (an out-of-range index in JavaScript yields undefined,
modelled as none); otherwise it draws r = u * total and walks the list. -/
def pickPrizeByProbability (ps : List Prize) (u : ℚ) : Option (Prize × ℕ) :=
  let total := totalWeight ps
  if total ≤ 0 then
    let idx : ℤ := ⌊u * (ps.length : ℚ)⌋
    if idx < 0 then none
    else (ps.get? idx.toNat).map (fun p => (p, idx.toNat))
  else
    selectWeighted ps (u * total)

/-- Record written to the spins collection by recordSpin. The Firestore
Timestamp.now() value is modelled as a natural number. -/
structure DrawRecord where
  bookingId : String
  prizeId : String
  prizeLabel : String
  createdAt : ℕ
deriving DecidableEq, Repr

/-- React state of the App component, restricted to the fields the draw
logic reads and writes, together with the spins collection. -/
structure AppState where
  bookingIdInput : String
  bookingId : String
  allowSpin : Bool
  result : Option Prize
  spins : List DrawRecord
deriving DecidableEq, Repr

/-- Outcome of handleApplyBooking in src/src/App.jsx: the alert for a
blank id, or acceptance. -/
inductive ApplyOutcome
  | emptyId
  | applied
deriving DecidableEq, Repr

/-- Outcome of handleSpin: the two alert early-returns, the undefined
access when the uniform index is out of range, or a won prize. -/
inductive SpinOutcome
  | noBookingId
  | noPrizes
  | pickFailed
  | won (p : Prize)
deriving DecidableEq, Repr

/-- handleApplyBooking from src/src/App.jsx lines 93-103 (same logic in
part_001): trim the input; a blank id alerts and changes nothing;
otherwise the trimmed id is stored, the input cleared, the spin enabled.
No lookup of any kind is performed against the spins collection. -/
def handleApplyBooking (s : AppState) : ApplyOutcome × AppState :=
  let id := trimStr s.bookingIdInput
  if id = "" then (ApplyOutcome.emptyId, s)
  else (ApplyOutcome.applied,
    { s with bookingId := id, bookingIdInput := "", allowSpin := true, result := none })

/-- recordSpin from src/src/App.jsx lines 130-141: addDoc appends a
record with the current bookingId; a persistence failure is caught and
only logged (console.error), leaving the collection unchanged and
signalling nothing to the caller. persistOk says whether addDoc succeeds. -/
def recordSpin (persistOk : Bool) (s : AppState) (sel : Prize) (now : ℕ) : AppState :=
  if persistOk then
    { s with spins := s.spins ++ [⟨s.bookingId, sel.id, sel.label, now⟩] }
  else s

/-- handleSpin from src/src/App.jsx lines 105-128: guard on a missing
bookingId and on an empty prize table, pick a prize, then (in the timeout
callback) record the spin, publish the result, lock the spin and clear
the applied bookingId, and alert the win. -/
def handleSpin (prizes : List Prize) (u : ℚ) (now : ℕ) (persistOk : Bool)
    (s : AppState) : SpinOutcome × AppState :=
  if s.bookingId = "" then (SpinOutcome.noBookingId, s)
  else if prizes = [] then (SpinOutcome.noPrizes, s)
  else
    match pickPrizeByProbability prizes u with
    | some (sel, _idx) =>
        let s1 := recordSpin persistOk s sel now
        (SpinOutcome.won sel,
          { s1 with result := some sel, allowSpin := false, bookingId := "" })
    | none => (SpinOutcome.pickFailed, s)

/-- Result of verifyBookingId in src/unnamed/part_000 lines 166-183,
one constructor per message. -/
inductive VerifyResult
  | ok
  | required
  | notFound
  | alreadyUsed
deriving DecidableEq, Repr

/-- verifyBookingId from src/unnamed/part_000 lines 166-183: trim the id;
a blank id is required-error; unless ALLOW_ANY_BOOKING, the trimmed id
must exist in the bookings collection; an id already present among the
spins records is rejected as already used. -/
def verifyBookingId (allowAny : Bool) (bookings : List String)
    (spins : List DrawRecord) (id : String) : VerifyResult :=
  let trimmed := trimStr id
  if trimmed = "" then VerifyResult.required
  else if ¬allowAny ∧ trimmed ∉ bookings then VerifyResult.notFound
  else if spins.any (fun r => r.bookingId = trimmed) then VerifyResult.alreadyUsed
  else VerifyResult.ok

/-- handleApplyBooking from src/unnamed/part_000 lines 185-196: trim the
input, verify it (against the bookings collection and the spins ledger);
on failure alert and disable the spin, leaving bookingId as it was; on
success store the trimmed id and enable the spin. -/
def handleApplyBooking000 (allowAny : Bool) (bookings : List String)
    (s : AppState) : VerifyResult × AppState :=
  let id := trimStr s.bookingIdInput
  match verifyBookingId allowAny bookings s.spins id with
  | VerifyResult.ok =>
      (VerifyResult.ok, { s with bookingId := id, allowSpin := true, result := none })
  | e => (e, { s with allowSpin := false })

/-- Rescale-to-percentages bulk operation from the AdminPanel's Normalize
Probabilities button (src/src/App.jsx lines 299-319): each prize's
probability is replaced by (probability || 0) / total * 100. -/
def rescaleToPercent (ps : List Prize) : List Prize :=
  let total := totalWeight ps
  ps.map (fun p => { p with probability := some (effProb p / total * 100) })

/-- Ambient-randomness view of the selector: the JavaScript function
takes only the prize list and invokes the global Math.random() inside its
body, so the k-th call consumes the k-th value of the ambient stream gen;
no caller can pass a fixed r into it. -/
def pickAmbient (ps : List Prize) (gen : ℕ → ℚ) (call : ℕ) : Option (Prize × ℕ) :=
  pickPrizeByProbability ps (gen call)

/-- Concrete prize table with weights 10, 20, 70 used by the round-trip
test fixture of the specification. -/
def demoTable : List Prize :=
  [⟨"a", "A", some 10⟩, ⟨"b", "B", some 20⟩, ⟨"c", "C", some 70⟩]

/-- Concrete single-prize table. -/
def demoPrize : Prize := ⟨"p1", "Coffee", some 1⟩

/-- Concrete ambient randomness stream whose first two samples differ. -/
def demoGen : ℕ → ℚ := fun n => if n = 0 then 1/100 else 1/2

/-- Initial React state: empty fields, spin locked, no records. -/
def initState : AppState := ⟨"", "", false, none, []⟩

/-- Concrete table whose declared weights are zero and missing, so the
table-wide total is 0 and the uniform fallback applies. -/
def demoZeroTable : List Prize := [⟨"z1", "Z1", some 0⟩, ⟨"z2", "Z2", none⟩]

/- ------------------------------------------------------------------
Basic lemmas about the accumulated sums and the selection loop.
------------------------------------------------------------------ -/

lemma accs_zero (ps : List Prize) : accs ps 0 = 0 := by
  simp [accs]

lemma accs_cons (q : Prize) (rest : List Prize) (k : ℕ) :
    accs (q :: rest) (k + 1) = effProb q + accs rest k := by
  simp [accs, List.take_succ_cons]

lemma accs_length (ps : List Prize) : accs ps ps.length = totalWeight ps := by
  simp [accs, totalWeight]

lemma accs_succ_get (ps : List Prize) (k : ℕ) (p : Prize)
    (h : ps.get? k = some p) : accs ps (k + 1) = accs ps k + effProb p := by
  induction ps generalizing k with
  | nil => simp at h
  | cons q rest ih =>
    cases k with
    | zero =>
      simp only [List.get?_cons_zero, Option.some.injEq] at h
      subst h
      simp [accs_cons, accs_zero]
    | succ k' =>
      simp only [List.get?_cons_succ] at h
      rw [accs_cons, accs_cons, ih k' h]
      ring

/-- Characterization of the selection loop: it returns prize p at loop
counter j exactly when p sits at offset k = j - i0, the accumulated
bound at k reaches r, and no earlier accumulated bound does. -/
lemma walkFrom_eq_some_iff (r : ℚ) (ps : List Prize) :
    ∀ (acc : ℚ) (i0 : ℕ) (p : Prize) (j : ℕ),
    walkFrom r ps acc i0 = some (p, j) ↔
      ∃ k, k < ps.length ∧ j = i0 + k ∧ ps.get? k = some p ∧
        r ≤ acc + accs ps (k + 1) ∧ ∀ m, m < k → acc + accs ps (m + 1) < r := by
  induction ps with
  | nil => intro acc i0 p j; simp [walkFrom]
  | cons q rest ih =>
    intro acc i0 p j
    show (if r ≤ acc + effProb q then some (q, i0)
      else walkFrom r rest (acc + effProb q) (i0 + 1)) = some (p, j) ↔ _
    by_cases h : r ≤ acc + effProb q
    · rw [if_pos h]
      constructor
      · intro heq
        have hpair : q = p ∧ i0 = j := by
          have h2 := Option.some.inj heq
          exact ⟨congrArg Prod.fst h2, congrArg Prod.snd h2⟩
        refine ⟨0, by simp, by omega, ?_, ?_, ?_⟩
        · simp [hpair.1]
        · simpa [accs_cons, accs_zero] using h
        · intro m hm; omega
      · rintro ⟨k, hk, hj, hget, hle, hlt⟩
        cases k with
        | zero =>
          simp only [List.get?_cons_zero, Option.some.injEq] at hget
          subst hget
          simp [hj]
        | succ k' =>
          exfalso
          have h0 := hlt 0 (Nat.succ_pos _)
          rw [accs_cons, accs_zero] at h0
          simp only [add_zero] at h0
          exact absurd h (not_le.mpr h0)
    · rw [if_neg h]
      rw [ih (acc + effProb q) (i0 + 1) p j]
      have hq : acc + effProb q < r := lt_of_not_le h
      constructor
      · rintro ⟨k, hk, hj, hget, hle, hlt⟩
        refine ⟨k + 1, by simpa using Nat.succ_lt_succ hk, by omega, by simpa using hget,
          ?_, ?_⟩
        · rw [accs_cons]; linarith
        · intro m hm
          cases m with
          | zero =>
            rw [accs_cons, accs_zero]
            simpa using hq
          | succ m' =>
            have h2 := hlt m' (by omega)
            rw [accs_cons]; linarith
      · rintro ⟨k, hk, hj, hget, hle, hlt⟩
        cases k with
        | zero =>
          exfalso
          rw [accs_cons, accs_zero] at hle
          simp only [add_zero] at hle
          exact h (by linarith)
        | succ k' =>
          refine ⟨k', by simpa using hk, by omega, by simpa using hget, ?_, ?_⟩
          · rw [accs_cons] at hle; linarith
          · intro m hm
            have h2 := hlt (m + 1) (by omega)
            rw [accs_cons] at h2; linarith

/-- The selection loop finds an entry whenever r is at most the running
total over the remaining list. -/
lemma walkFrom_isSome (r : ℚ) :
    ∀ (ps : List Prize) (acc : ℚ) (i0 : ℕ), ps ≠ [] →
      r ≤ acc + (ps.map effProb).sum → (walkFrom r ps acc i0).isSome := by
  intro ps
  induction ps with
  | nil => intro acc i0 h; exact absurd rfl h
  | cons q rest ih =>
    intro acc i0 _ hle
    show (if r ≤ acc + effProb q then some (q, i0)
      else walkFrom r rest (acc + effProb q) (i0 + 1)).isSome
    by_cases h : r ≤ acc + effProb q
    · rw [if_pos h]; rfl
    · rw [if_neg h]
      cases rest with
      | nil =>
        exfalso
        simp only [List.map_cons, List.map_nil, List.sum_cons, List.sum_nil,
          add_zero] at hle
        exact h hle
      | cons q2 rest2 =>
        refine ih _ _ (by simp) ?_
        simp only [List.map_cons, List.sum_cons] at hle ⊢
        linarith

/-- Weighted selection always lands on an in-bounds entry of the table
once r is at most the total weight. -/
lemma selectWeighted_mem (ps : List Prize) (r : ℚ) (hne : ps ≠ [])
    (hr : r ≤ totalWeight ps) :
    ∃ p k, selectWeighted ps r = some (p, k) ∧ k < ps.length ∧ ps.get? k = some p := by
  have hsome := walkFrom_isSome r ps 0 0 hne (by simpa [totalWeight] using hr)
  obtain ⟨⟨p, j⟩, hw⟩ := Option.isSome_iff_exists.mp hsome
  obtain ⟨k, hk, hj, hget, -, -⟩ := (walkFrom_eq_some_iff r ps 0 0 p j).mp hw
  refine ⟨p, j, ?_, by omega, by rw [show j = k from by omega]; exact hget⟩
  simp [selectWeighted, hw]

/-- When the loop misses (which exact arithmetic only allows for
r above the total), the weighted selection returns the last entry. -/
lemma selectWeighted_fallback (ps : List Prize) (r : ℚ) (hne : ps ≠ [])
    (hmiss : walkFrom r ps 0 0 = none) :
    ∃ p, ps.getLast? = some p ∧ selectWeighted ps r = some (p, ps.length - 1) := by
  obtain ⟨p, hp⟩ := Option.isSome_iff_exists.mp (List.getLast?_isSome.mpr hne)
  exact ⟨p, hp, by simp [selectWeighted, hmiss, hp]⟩

/-- With a positive total, the selector takes the weighted branch. -/
lemma pick_pos_total (ps : List Prize) (u : ℚ) (ht : 0 < totalWeight ps) :
    pickPrizeByProbability ps u = selectWeighted ps (u * totalWeight ps) := by
  simp [pickPrizeByProbability, not_le.mpr ht]

/-- With a non-positive total and a sample in [0, 1), the selector
returns the entry at index ⌊u · n⌋, which is in bounds. -/
lemma pick_uniform (ps : List Prize) (u : ℚ) (ht : totalWeight ps ≤ 0)
    (hne : ps ≠ []) (hu0 : 0 ≤ u) (hu1 : u < 1) :
    ∃ p, ps.get? (⌊u * (ps.length : ℚ)⌋.toNat) = some p ∧
      ⌊u * (ps.length : ℚ)⌋.toNat < ps.length ∧
      pickPrizeByProbability ps u = some (p, ⌊u * (ps.length : ℚ)⌋.toNat) := by
  have hn : 0 < ps.length := List.length_pos.mpr hne
  have hnq : (0 : ℚ) < (ps.length : ℚ) := by exact_mod_cast hn
  have hfl0 : (0 : ℤ) ≤ ⌊u * (ps.length : ℚ)⌋ :=
    Int.le_floor.mpr (by simpa using mul_nonneg hu0 (le_of_lt hnq))
  have hfln : ⌊u * (ps.length : ℚ)⌋ < (ps.length : ℤ) :=
    Int.floor_lt.mpr (by
      calc u * (ps.length : ℚ) < 1 * (ps.length : ℚ) :=
            mul_lt_mul_of_pos_right hu1 hnq
        _ = ((ps.length : ℤ) : ℚ) := by push_cast; ring)
  have htn : ⌊u * (ps.length : ℚ)⌋.toNat < ps.length := by omega
  refine ⟨ps.get ⟨_, htn⟩, List.get?_eq_get htn, htn, ?_⟩
  have hp := List.get?_eq_get htn
  simp only [pickPrizeByProbability, if_pos ht]
  rw [if_neg (by omega), hp]
  rfl

/-- Whatever the branch, the selector returns an in-bounds entry for a
non-empty table and a sample in [0, 1). -/
lemma pick_mem (ps : List Prize) (u : ℚ) (hne : ps ≠ [])
    (hu0 : 0 ≤ u) (hu1 : u < 1) :
    ∃ p k, pickPrizeByProbability ps u = some (p, k) ∧ k < ps.length ∧
      ps.get? k = some p := by
  by_cases ht : totalWeight ps ≤ 0
  · obtain ⟨p, hp, hlt, hpick⟩ := pick_uniform ps u ht hne hu0 hu1
    exact ⟨p, _, hpick, hlt, hp⟩
  · push_neg at ht
    rw [pick_pos_total ps u ht]
    obtain ⟨p, k, hsel, hk, hget⟩ := selectWeighted_mem ps (u * totalWeight ps) hne
      (by nlinarith)
    exact ⟨p, k, hsel, hk, hget⟩

/-- Accumulated sums of a list mapped through an entrywise weight scaling. -/
lemma accs_map_scale (ps : List Prize) (f : Prize → Prize) (c : ℚ)
    (hf : ∀ p, effProb (f p) = c * effProb p) (k : ℕ) :
    accs (ps.map f) k = c * accs ps k := by
  have hcomp : effProb ∘ f = fun p => c * effProb p := funext hf
  rw [accs, accs, ← List.map_take, List.map_map, hcomp, List.sum_map_mul_left]

/-- Scaling every effective weight by a positive constant, and the drawn
value with it, leaves the index selected by the loop unchanged. -/
lemma walk_map_scale (ps : List Prize) (f : Prize → Prize) (c : ℚ) (hc : 0 < c)
    (hf : ∀ p, effProb (f p) = c * effProb p) (r : ℚ) :
    (walkFrom (c * r) (ps.map f) 0 0).map Prod.snd =
      (walkFrom r ps 0 0).map Prod.snd := by
  cases hw : walkFrom r ps 0 0 with
  | some pi =>
    obtain ⟨p, j⟩ := pi
    obtain ⟨k, hk, hj, hget, hle, hlt⟩ := (walkFrom_eq_some_iff r ps 0 0 p j).mp hw
    have hw2 : walkFrom (c * r) (ps.map f) 0 0 = some (f p, j) := by
      refine (walkFrom_eq_some_iff (c * r) (ps.map f) 0 0 (f p) j).mpr
        ⟨k, by simpa using hk, hj, ?_, ?_, ?_⟩
      · rw [List.get?_map, hget]; rfl
      · rw [accs_map_scale ps f c hf]
        have := mul_le_mul_of_nonneg_left hle (le_of_lt hc)
        simpa [mul_add] using this
      · intro m hm
        rw [accs_map_scale ps f c hf]
        have := mul_lt_mul_of_pos_left (hlt m hm) hc
        simpa [mul_add] using this
    rw [hw2]
    rfl
  | none =>
    cases hw2 : walkFrom (c * r) (ps.map f) 0 0 with
    | none => rfl
    | some pi2 =>
      exfalso
      obtain ⟨p2, j2⟩ := pi2
      obtain ⟨k, hk, hj, hget, hle, hlt⟩ :=
        (walkFrom_eq_some_iff (c * r) (ps.map f) 0 0 p2 j2).mp hw2
      rw [List.length_map] at hk
      obtain ⟨p, hp⟩ := Option.isSome_iff_exists.mp
        (by rw [List.get?_eq_get hk]; rfl : (ps.get? k).isSome)
      have hw3 : walkFrom r ps 0 0 = some (p, j2) := by
        refine (walkFrom_eq_some_iff r ps 0 0 p j2).mpr ⟨k, hk, hj, hp, ?_, ?_⟩
        · have h2 := hle
          rw [accs_map_scale ps f c hf] at h2
          simp only [zero_add] at h2 ⊢
          exact le_of_mul_le_mul_left h2 hc
        · intro m hm
          have h2 := hlt m hm
          rw [accs_map_scale ps f c hf] at h2
          simp only [zero_add] at h2 ⊢
          exact lt_of_mul_lt_mul_left h2 (le_of_lt hc)
      rw [hw3] at hw
      exact Option.noConfusion hw

/- ------------------------------------------------------------------
Claim theorems.
------------------------------------------------------------------ -/

/-- C2, counterexample: for the table with weights [10, 20, 70] the
cumulative upper bounds are [10, 30, 100], but the selector applied to
the drawn value r = 10 returns the FIRST entry (index 0), not the second
as the claim states: the comparison in the code is r <= acc, so a
boundary value belongs to the entry whose upper bound it equals. -/
theorem c2_boundary_counterexample :
    cumulBounds demoTable = [10, 30, 100] ∧
    (selectWeighted demoTable 10).map Prod.snd = some 0 ∧
    ¬ (selectWeighted demoTable 10).map Prod.snd = some 1 := by
  refine ⟨?_, ?_, ?_⟩ <;>
    norm_num [cumulBounds, accs, effProb, demoTable, List.range_succ,
      selectWeighted, walkFrom]

/-- C2, amended: normalizing the weights [10, 20, 70] yields the
cumulative upper bounds [10, 30, 100], and the selector applied to
r = 10 returns the first entry; the upper bound of each range is
inclusive, so the second entry is selected only for r strictly above 10
(for instance r = 101/10). -/
theorem c2_boundary_amended :
    cumulBounds demoTable = [10, 30, 100] ∧
    (selectWeighted demoTable 10).map Prod.snd = some 0 ∧
    (selectWeighted demoTable (101 / 10)).map Prod.snd = some 1 := by
  refine ⟨?_, ?_, ?_⟩ <;>
    norm_num [cumulBounds, accs, effProb, demoTable, List.range_succ,
      selectWeighted, walkFrom]

/-- C6: for a non-empty table with positive total weight and a drawn
value r in [0, total), the weighted selection returns an in-bounds entry
of the table; and whenever the accumulating loop misses r, the selection
falls back to the last entry rather than failing. -/
theorem c6_selector_total (ps : List Prize) (r : ℚ) (hne : ps ≠ []) :
    (0 < totalWeight ps → 0 ≤ r → r < totalWeight ps →
      ∃ p k, selectWeighted ps r = some (p, k) ∧ k < ps.length ∧
        ps.get? k = some p)
    ∧ (walkFrom r ps 0 0 = none →
      ∃ p, ps.getLast? = some p ∧ selectWeighted ps r = some (p, ps.length - 1)) := by
  exact ⟨fun _ _ hr => selectWeighted_mem ps r hne (le_of_lt hr),
    fun hm => selectWeighted_fallback ps r hne hm⟩

/-- C6 witness: at the demo table and r = 50, the selector returns an
in-bounds entry. -/
theorem c6_selector_total_witness :
    ∃ p k, selectWeighted demoTable 50 = some (p, k) ∧ k < demoTable.length ∧
      demoTable.get? k = some p :=
  (c6_selector_total demoTable 50 (by simp [demoTable])).1
    (by norm_num [totalWeight, effProb, demoTable])
    (by norm_num)
    (by norm_num [totalWeight, effProb, demoTable])

/-- C10: for a non-empty prize list and a Math.random() sample u in
[0, 1), pickPrizeByProbability returns a pair whose index is in bounds
and whose prize is the list element at that index, in both the
positive-total and the uniform-fallback branch. -/
theorem c10_pick_consistent (ps : List Prize) (u : ℚ) (hne : ps ≠ [])
    (hu0 : 0 ≤ u) (hu1 : u < 1) :
    ∃ p k, pickPrizeByProbability ps u = some (p, k) ∧ k < ps.length ∧
      ps.get? k = some p :=
  pick_mem ps u hne hu0 hu1

/-- C10 witness: at the zero-weight demo table (uniform branch) with
u = 1/2, the selector returns an in-bounds consistent pair. -/
theorem c10_pick_consistent_witness :
    ∃ p k, pickPrizeByProbability demoZeroTable (1 / 2) = some (p, k) ∧
      k < demoZeroTable.length ∧ demoZeroTable.get? k = some p :=
  c10_pick_consistent demoZeroTable (1 / 2) (by simp [demoZeroTable])
    (by norm_num) (by norm_num)

/-- C7: the source selector does not accept an injected randomness
source; it invokes the ambient Math.random() inside its body, so two
successive draws consume successive samples of the ambient stream and
select different prizes even though the caller supplied identical
arguments: with the stream demoGen, call 0 picks index 0 while call 1
picks index 2. -/
theorem c7_ambient_randomness_divergence :
    pickAmbient demoTable demoGen 0 ≠ pickAmbient demoTable demoGen 1 ∧
    (pickAmbient demoTable demoGen 0).map Prod.snd = some 0 ∧
    (pickAmbient demoTable demoGen 1).map Prod.snd = some 2 := by
  refine ⟨?_, ?_, ?_⟩ <;>
    norm_num [pickAmbient, demoGen, pickPrizeByProbability, totalWeight,
      selectWeighted, walkFrom, effProb, demoTable]

/-- C8: when persisting the DrawRecord fails, recordSpin catches the
error and only logs it, so handleSpin still reports the win and appends
nothing: the outcome is the won prize, no record is written, and no
failure is signalled to any caller (the outcome type of the code has no
persistence-failure case at all). -/
theorem c8_persistence_failure_swallowed :
    handleSpin [demoPrize] 0 5 false ⟨"", "A", true, none, []⟩ =
      (SpinOutcome.won demoPrize, ⟨"", "", false, some demoPrize, []⟩) := by
  norm_num [handleSpin, pickPrizeByProbability, totalWeight, effProb,
    selectWeighted, walkFrom, recordSpin, demoPrize, String.ext_iff]

/-- C5: the uniform fallback is table-wide.
First conjunct: when the table-wide sum of declared weights is ≤ 0 the
selector is uniform over the entries: for a sample u in [0, 1), entry i
is selected exactly when u lies in [i/n, (i+1)/n).
Second conjunct: when the sum is positive there is no per-entry
fallback: an entry (past the first) whose effective weight is ≤ 0 is
never selected.
Third conjunct: a positive declared weight is used as the effective
weight unchanged. -/
theorem c5_table_wide_uniform_fallback (ps : List Prize) (u : ℚ) (i : ℕ) :
    (totalWeight ps ≤ 0 → 0 ≤ u → u < 1 → i < ps.length →
      ((pickPrizeByProbability ps u).map Prod.snd = some i ↔
        (i : ℚ) / (ps.length : ℚ) ≤ u ∧ u < ((i : ℚ) + 1) / (ps.length : ℚ)))
    ∧ (0 < totalWeight ps → 0 ≤ u → u < 1 → 1 ≤ i → ∀ p, ps.get? i = some p →
        effProb p ≤ 0 → (pickPrizeByProbability ps u).map Prod.snd ≠ some i)
    ∧ (∀ q w, Prize.probability q = some w → 0 < w → effProb q = w) := by
  refine ⟨?_, ?_, ?_⟩
  · intro ht hu0 hu1 hi
    have hne : ps ≠ [] := by intro h; rw [h] at hi; simp at hi
    have hn : 0 < ps.length := List.length_pos.mpr hne
    have hnq : (0 : ℚ) < (ps.length : ℚ) := by exact_mod_cast hn
    obtain ⟨p, hp, hlt, hpick⟩ := pick_uniform ps u ht hne hu0 hu1
    rw [hpick]
    have hfl0 : (0 : ℤ) ≤ ⌊u * (ps.length : ℚ)⌋ :=
      Int.le_floor.mpr (by simpa using mul_nonneg hu0 (le_of_lt hnq))
    simp only [Option.map_some', Option.some.injEq]
    constructor
    · intro h
      have hidx : ⌊u * (ps.length : ℚ)⌋ = (i : ℤ) := by omega
      have hiff := Int.floor_eq_iff.mp hidx
      constructor
      · rw [div_le_iff hnq]; exact_mod_cast hiff.1
      · rw [lt_div_iff hnq]
        have h2 := hiff.2
        push_cast at h2
        linarith
    · rintro ⟨h1, h2⟩
      have h1' : (i : ℚ) ≤ u * (ps.length : ℚ) := by
        rw [div_le_iff hnq] at h1; linarith
      have h2' : u * (ps.length : ℚ) < (i : ℚ) + 1 := by
        rw [lt_div_iff hnq] at h2; linarith
      have hidx : ⌊u * (ps.length : ℚ)⌋ = (i : ℤ) :=
        Int.floor_eq_iff.mpr ⟨by exact_mod_cast h1', by push_cast; linarith⟩
      omega
  · intro ht hu0 hu1 hi1 p hget heff
    have hne : ps ≠ [] := by
      intro h; rw [h] at ht; simp [totalWeight] at ht
    rw [pick_pos_total ps u ht]
    have hr0 : 0 ≤ u * totalWeight ps := mul_nonneg hu0 (le_of_lt ht)
    have hrlt : u * totalWeight ps < totalWeight ps := by nlinarith
    intro hcon
    have hsome := walkFrom_isSome (u * totalWeight ps) ps 0 0 hne
      (by
        have := accs_length ps
        simp only [accs, List.take_length] at this
        simpa [totalWeight] using le_of_lt hrlt)
    obtain ⟨⟨p', j⟩, hw⟩ := Option.isSome_iff_exists.mp hsome
    obtain ⟨k, hk, hj, hget', hle, hlt⟩ :=
      (walkFrom_eq_some_iff (u * totalWeight ps) ps 0 0 p' j).mp hw
    have hj2 : (selectWeighted ps (u * totalWeight ps)).map Prod.snd = some j := by
      simp [selectWeighted, hw]
    rw [hj2] at hcon
    have hki : k = i := by
      have := Option.some.inj hcon; omega
    subst hki
    have hpp : p' = p := by
      rw [hget] at hget'; exact (Option.some.inj hget').symm
    have hprev := hlt (k - 1) (by omega)
    have hsucc : accs ps (k + 1) = accs ps k + effProb p :=
      accs_succ_get ps k p hget
    rw [show k - 1 + 1 = k from by omega] at hprev
    rw [hsucc] at hle
    simp only [zero_add] at hle hprev
    linarith
  · intro q w h hpos
    simp [effProb, h]

/-- C5 witness: the zero-and-missing-weight demo table has total 0; with
u = 1/2 and n = 2 the uniform characterization puts the selection at
index 1. -/
theorem c5_table_wide_uniform_fallback_witness :
    (pickPrizeByProbability demoZeroTable (1 / 2)).map Prod.snd = some 1 :=
  ((c5_table_wide_uniform_fallback demoZeroTable (1 / 2) 1).1
    (by norm_num [totalWeight, effProb, demoZeroTable])
    (by norm_num) (by norm_num) (by norm_num [demoZeroTable])).mpr
    (by norm_num [demoZeroTable])

/-- C9: the rescale-to-percentages bulk operation of the admin panel
does not change which entry the selector picks, for any table with
positive total weight and any Math.random() sample. -/
theorem c9_rescale_draw_invariant (ps : List Prize) (u : ℚ)
    (ht : 0 < totalWeight ps) :
    (pickPrizeByProbability (rescaleToPercent ps) u).map Prod.snd =
      (pickPrizeByProbability ps u).map Prod.snd := by
  have htne : totalWeight ps ≠ 0 := ne_of_gt ht
  have hc : 0 < (100 : ℚ) / totalWeight ps := by positivity
  have hf : ∀ p, effProb
      ({ p with probability := some (effProb p / totalWeight ps * 100) } : Prize)
      = (100 / totalWeight ps) * effProb p := by
    intro p
    simp only [effProb, Option.getD_some]
    field_simp
    ring
  have hres : rescaleToPercent ps = ps.map
      (fun p => { p with probability := some (effProb p / totalWeight ps * 100) }) := rfl
  have hne : ps ≠ [] := by
    intro h; rw [h] at ht; simp [totalWeight] at ht
  have htot : totalWeight (ps.map
      (fun p => { p with probability := some (effProb p / totalWeight ps * 100) })) = 100 := by
    rw [← accs_length, List.length_map, accs_map_scale ps _ _ hf, accs_length]
    field_simp
  have hr : u * (100 : ℚ) = (100 / totalWeight ps) * (u * totalWeight ps) := by
    field_simp
    ring
  rw [hres, pick_pos_total _ u (by rw [htot]; norm_num), pick_pos_total _ u ht,
    htot, hr]
  have hwalk := walk_map_scale ps _ (100 / totalWeight ps) hc hf (u * totalWeight ps)
  cases hw : walkFrom (u * totalWeight ps) ps 0 0 with
  | some pi =>
    rw [hw] at hwalk
    cases hw2 : walkFrom ((100 / totalWeight ps) * (u * totalWeight ps))
        (ps.map (fun p => { p with probability := some (effProb p / totalWeight ps * 100) })) 0 0 with
    | none => rw [hw2] at hwalk; simp at hwalk
    | some pi2 =>
      rw [hw2] at hwalk
      simp only [Option.map_some', Option.some.injEq] at hwalk
      simp [selectWeighted, hw, hw2, hwalk]
  | none =>
    rw [hw] at hwalk
    cases hw2 : walkFrom ((100 / totalWeight ps) * (u * totalWeight ps))
        (ps.map (fun p => { p with probability := some (effProb p / totalWeight ps * 100) })) 0 0 with
    | some pi2 => rw [hw2] at hwalk; simp at hwalk
    | none =>
      obtain ⟨p, hp⟩ := Option.isSome_iff_exists.mp (List.getLast?_isSome.mpr hne)
      obtain ⟨p2, hp2⟩ := Option.isSome_iff_exists.mp
        (List.getLast?_isSome.mpr (by simpa using hne :
          ps.map (fun p => { p with probability := some (effProb p / totalWeight ps * 100) }) ≠ []))
      simp [selectWeighted, hw, hw2, hp, hp2]

/-- C9 witness: the demo table has positive total, so rescaling keeps
the selected index. -/
theorem c9_rescale_draw_invariant_witness :
    (pickPrizeByProbability (rescaleToPercent demoTable) (1 / 2)).map Prod.snd =
      (pickPrizeByProbability demoTable (1 / 2)).map Prod.snd :=
  c9_rescale_draw_invariant demoTable (1 / 2)
    (by norm_num [totalWeight, effProb, demoTable])

/-- C3: with a booking id applied, a spin against an empty prize table
alerts and leaves the state untouched (no DrawRecord, identifier not
consumed), and the very same state can later win once a table is
configured, recording exactly when persistence succeeds. -/
theorem c3_empty_table_not_consuming (s : AppState) (prizes : List Prize)
    (u : ℚ) (now : ℕ) (pOk : Bool) (hb : s.bookingId ≠ "")
    (hne : prizes ≠ []) (hu0 : 0 ≤ u) (hu1 : u < 1) :
    handleSpin [] u now pOk s = (SpinOutcome.noPrizes, s) ∧
    ∃ sel k, prizes.get? k = some sel ∧
      (handleSpin prizes u now pOk s).1 = SpinOutcome.won sel ∧
      (handleSpin prizes u now pOk s).2.spins =
        (if pOk then s.spins ++ [⟨s.bookingId, sel.id, sel.label, now⟩]
          else s.spins) := by
  constructor
  · simp [handleSpin, hb]
  · obtain ⟨sel, k, hpick, hk, hget⟩ := pick_mem prizes u hne hu0 hu1
    refine ⟨sel, k, hget, ?_, ?_⟩ <;>
      cases pOk <;> simp [handleSpin, hb, hne, hpick, recordSpin]

/-- C3 witness: with booking id A applied and no prizes, the spin fails
leaving the state unchanged, and the same state then wins on a
one-prize table. -/
theorem c3_empty_table_not_consuming_witness :
    handleSpin [] 0 5 true ⟨"", "A", true, none, []⟩ =
      (SpinOutcome.noPrizes, ⟨"", "A", true, none, []⟩) ∧
    ∃ sel k, [demoPrize].get? k = some sel ∧
      (handleSpin [demoPrize] 0 5 true ⟨"", "A", true, none, []⟩).1 =
        SpinOutcome.won sel ∧
      (handleSpin [demoPrize] 0 5 true ⟨"", "A", true, none, []⟩).2.spins =
        (if true then ([] : List DrawRecord) ++ [⟨"A", sel.id, sel.label, 5⟩]
          else []) :=
  c3_empty_table_not_consuming ⟨"", "A", true, none, []⟩ [demoPrize] 0 5 true
    (by simp) (by simp) (by norm_num) (by norm_num)

/-- C4: the App.jsx apply handler rejects an input that is blank after
trimming without touching the state, stores the trimmed id otherwise,
and the record writer stores that (trimmed) stored id; the part_000
verifier rejects a blank trimmed id, and its already-used answer is
keyed on the trimmed form of the submitted string. -/
theorem c4_booking_trim (s : AppState) (allowAny : Bool)
    (bookings : List String) (spins : List DrawRecord) (id : String) :
    (trimStr s.bookingIdInput = "" →
      handleApplyBooking s = (ApplyOutcome.emptyId, s))
    ∧ (trimStr s.bookingIdInput ≠ "" →
      handleApplyBooking s = (ApplyOutcome.applied,
        { s with
            bookingId := trimStr s.bookingIdInput, bookingIdInput := "",
            allowSpin := true, result := none }))
    ∧ (∀ sel now, (recordSpin true s sel now).spins =
        s.spins ++ [⟨s.bookingId, sel.id, sel.label, now⟩])
    ∧ (trimStr id = "" →
        verifyBookingId allowAny bookings spins id = VerifyResult.required)
    ∧ (verifyBookingId allowAny bookings spins id = VerifyResult.alreadyUsed ↔
        trimStr id ≠ "" ∧ (allowAny = true ∨ trimStr id ∈ bookings) ∧
          spins.any (fun r => r.bookingId = trimStr id) = true) := by
  refine ⟨?_, ?_, ?_, ?_, ?_⟩
  · intro h; simp [handleApplyBooking, h]
  · intro h; simp [handleApplyBooking, h]
  · intro sel now; simp [recordSpin]
  · intro h; simp [verifyBookingId, h]
  · unfold verifyBookingId
    by_cases h1 : trimStr id = ""
    · simp [h1]
    · rw [if_neg h1]
      by_cases h2 : ¬(allowAny = true) ∧ trimStr id ∉ bookings
      · rw [if_pos h2]
        simp only [h1, ne_eq, not_false_iff, true_and]
        constructor
        · intro h; exact absurd h (by simp)
        · rintro ⟨hor, -⟩; tauto
      · rw [if_neg h2]
        by_cases h3 : spins.any (fun r => r.bookingId = trimStr id) = true
        · rw [if_pos h3]
          simp only [h1, ne_eq, not_false_iff, true_and, h3, and_true]
          constructor
          · intro _; tauto
          · intro _; trivial
        · rw [if_neg h3]
          simp [h3, h1]

/-- C4 witness: applying the input with surrounding blanks stores the
trimmed id ABC123. -/
theorem c4_booking_trim_witness :
    handleApplyBooking ⟨"  ABC123  ", "", false, none, []⟩ =
      (ApplyOutcome.applied, ⟨"", "ABC123", true, none, []⟩) := by
  have h := (c4_booking_trim ⟨"  ABC123  ", "", false, none, []⟩ true [] [] "x").2.1
    (by decide)
  rw [h]
  decide

/-- C1, counterexample: in src/src/App.jsx the ledger is never consulted,
so one booking id draws twice: applying A, spinning, re-entering A,
applying again and spinning again both succeed and leave two DrawRecords
for A in the spins collection. -/
theorem c1_replay_counterexample :
    handleApplyBooking ⟨"A", "", false, none, []⟩ =
      (ApplyOutcome.applied, ⟨"", "A", true, none, []⟩) ∧
    handleSpin [demoPrize] 0 1 true ⟨"", "A", true, none, []⟩ =
      (SpinOutcome.won demoPrize,
        ⟨"", "", false, some demoPrize, [⟨"A", "p1", "Coffee", 1⟩]⟩) ∧
    handleApplyBooking ⟨"A", "", false, some demoPrize, [⟨"A", "p1", "Coffee", 1⟩]⟩ =
      (ApplyOutcome.applied,
        ⟨"", "A", true, none, [⟨"A", "p1", "Coffee", 1⟩]⟩) ∧
    handleSpin [demoPrize] 0 2 true ⟨"", "A", true, none, [⟨"A", "p1", "Coffee", 1⟩]⟩ =
      (SpinOutcome.won demoPrize,
        ⟨"", "", false, some demoPrize,
          [⟨"A", "p1", "Coffee", 1⟩, ⟨"A", "p1", "Coffee", 2⟩]⟩) := by
  have h1 : trimStr "A" = "A" := by decide
  refine ⟨?_, ?_, ?_, ?_⟩ <;>
    norm_num [handleApplyBooking, handleSpin, pickPrizeByProbability,
      totalWeight, effProb, selectWeighted, walkFrom, recordSpin, demoPrize,
      h1, String.ext_iff]

/-- C1, amended: the one-draw-per-identifier check lives only in the
part_000 variant: its verifier rejects, as already used, any submission
whose trimmed form equals the bookingId of an existing DrawRecord (when
the blank and not-found guards do not fire first), and its apply handler
never writes to the spins collection and, on any rejection, keeps the
previously applied bookingId and disables the spin. -/
theorem c1_replay_guard_part000 (allowAny : Bool) (bookings : List String)
    (s : AppState) (y x : String)
    (hx : x ∈ s.spins.map DrawRecord.bookingId) (hy : trimStr y = x)
    (hne : trimStr y ≠ "")
    (hbk : allowAny = true ∨ trimStr y ∈ bookings) :
    verifyBookingId allowAny bookings s.spins y = VerifyResult.alreadyUsed ∧
    (handleApplyBooking000 allowAny bookings s).2.spins = s.spins ∧
    (verifyBookingId allowAny bookings s.spins (trimStr s.bookingIdInput) ≠
        VerifyResult.ok →
      (handleApplyBooking000 allowAny bookings s).2.bookingId = s.bookingId ∧
      (handleApplyBooking000 allowAny bookings s).2.allowSpin = false) := by
  have hany : s.spins.any (fun r => r.bookingId = trimStr y) = true := by
    rw [List.any_eq_true]
    obtain ⟨r, hr, hrx⟩ := List.mem_map.mp hx
    exact ⟨r, hr, by simp [hrx, hy]⟩
  refine ⟨?_, ?_, ?_⟩
  · unfold verifyBookingId
    rw [if_neg hne, if_neg (by tauto), if_pos hany]
  · simp only [handleApplyBooking000]
    cases h : verifyBookingId allowAny bookings s.spins (trimStr s.bookingIdInput) <;>
      rfl
  · intro hnok
    simp only [handleApplyBooking000]
    cases h : verifyBookingId allowAny bookings s.spins (trimStr s.bookingIdInput)
    · exact absurd h hnok
    all_goals exact ⟨by trivial, by trivial⟩

/-- C1 amended witness: with a record for A present, submitting the
blank-padded string that trims to A is rejected as already used, and the
apply handler keeps the spins list. -/
theorem c1_replay_guard_part000_witness :
    verifyBookingId true [] [⟨"A", "p1", "Coffee", 1⟩] " A " =
      VerifyResult.alreadyUsed ∧
    (handleApplyBooking000 true []
        ⟨" A ", "", false, none, [⟨"A", "p1", "Coffee", 1⟩]⟩).2.spins =
      [⟨"A", "p1", "Coffee", 1⟩] :=
  ⟨(c1_replay_guard_part000 true [] ⟨" A ", "", false, none, [⟨"A", "p1", "Coffee", 1⟩]⟩
      " A " "A" (by decide) (by decide) (by decide) (by decide)).1,
    (c1_replay_guard_part000 true [] ⟨" A ", "", false, none, [⟨"A", "p1", "Coffee", 1⟩]⟩
      " A " "A" (by decide) (by decide) (by decide) (by decide)).2.1⟩

end SpinWheel
